import Mathlib

/-!
Verification of the subpixel phase-correlation registration pipeline
(`cucim.skimage.registration._phase_cross_correlation`).

The embedding idealizes IEEE floating-point arithmetic as exact arithmetic:
real scalars become `ℝ`, complex scalars become `ℂ`, and the float-valued
shift vector (which only ever holds exact multiples of `1/upsample_factor`)
becomes `List ℚ`.  N-dimensional arrays are modelled as a shape (`List ℕ`)
together with a total valuation `List ℕ → ℂ`; only indices enumerated by
`allIdx shape` (row-major / C order, the order `cupy` flattens in) are
meaningful.  A second embedding (`NanPCC` below) refines the scalars to
`Option ℂ` so that the IEEE NaN element and its propagation through sums and
products become expressible; that model backs the claims about the NaN guard.
-/

namespace PhaseCorr

/-- Row-major (C order) enumeration of all multi-indices of an array of the
given shape.  `cp.argmax` flattens in exactly this order, so the numpy
`unravel_index (argmax xs) shape` idiom is modelled by indexing into this
list. -/
def allIdx : List ℕ → List (List ℕ)
  | [] => [[]]
  | n :: rest => (List.range n).flatMap fun i => (allIdx rest).map (i :: ·)

/-- Complex twiddle factor `exp(-2·π·i·q)`; the source builds these as
`cp.exp(-im2pi * k)` with `im2pi = 1j * 2 * np.pi` (line 67/74). -/
noncomputable def twiddle (q : ℚ) : ℂ :=
  Complex.exp (-(q : ℂ) * (2 * Real.pi * Complex.I))

/-- Sample frequency grid of the external FFT collaborator:
`fft.fftfreq(n, d)[k]` is `k/(d*n)` for `k` below the midpoint and
`(k-n)/(d*n)` past it. -/
def fftfreq (n : ℕ) (d : ℚ) (k : ℕ) : ℚ :=
  (if k < (n + 1) / 2 then (k : ℤ) else (k : ℤ) - (n : ℤ)) / (d * n)

/-- Normalized bilinear pairing of an output index with an input index:
`Σ_a idx_a · k_a / n_a`, the exponent (in turns) of the N-dimensional DFT. -/
def dotIdx : List ℕ → List ℕ → List ℕ → ℚ
  | i :: is, k :: ks, n :: ns => ((i * k : ℕ) : ℚ) / (n : ℚ) + dotIdx is ks ns
  | _, _, _ => 0

/-- Sum of a complex-valued function over all multi-indices of a shape. -/
noncomputable def sumIdx (shape : List ℕ) (g : List ℕ → ℂ) : ℂ :=
  ((allIdx shape).map g).sum

/-- Models the external N-dimensional forward FFT collaborator (`fft.fftn`):
`X[idx] = Σ_k x[k] · exp(-2πi Σ_a idx_a k_a / n_a)`. -/
noncomputable def fftn (shape : List ℕ) (f : List ℕ → ℂ) : List ℕ → ℂ :=
  fun idx => sumIdx shape fun k => twiddle (dotIdx idx k shape) * f k

/-- Models the external N-dimensional inverse FFT collaborator (`fft.ifftn`):
`x[idx] = (1/N) Σ_k X[k] · exp(+2πi Σ_a idx_a k_a / n_a)`. -/
noncomputable def ifftn (shape : List ℕ) (f : List ℕ → ℂ) : List ℕ → ℂ :=
  fun idx =>
    sumIdx shape (fun k => twiddle (-dotIdx idx k shape) * f k) / (shape.prod : ℂ)

/-- Entry `(j, k)` of the per-axis kernel matrix of `_upsampled_dft`
(source lines 72-74): `exp(-2πi · (j - offset) · fftfreq(n, upsample_factor)[k])`. -/
noncomputable def kernelEntry (n : ℕ) (u off : ℚ) (j k : ℕ) : ℂ :=
  twiddle (((j : ℚ) - off) * fftfreq n u k)

/-- One pass of the loop body of `_upsampled_dft` (source line 80):
`cp.tensordot(kernel, data, axes=(1, -1))` contracts the kernel's column axis
against the data's last axis and puts the kernel's row axis first, so the
output at index `j :: rest` sums `kernel[j, k] * data[rest ++ [k]]` over `k`.
The row count `sz` (`ups_size`, the kernel's `arange` length) only bounds
which output indices `j` are meaningful. -/
noncomputable def contractStep (n sz : ℕ) (u off : ℚ) (f : List ℕ → ℂ) :
    List ℕ → ℂ
  | [] => f []
  | j :: rest =>
    ((List.range n).map fun k => kernelEntry n u off j k * f (rest ++ [k])).sum

/-- Upsampled DFT by matrix multiplication (`_upsampled_dft`, source lines
15-81): iterate `contractStep` over `zip(data.shape, upsampled_region_size,
axis_offsets)` in reverse axis order (`dim_properties[::-1]`). -/
noncomputable def upsampled_dft (shape sizes : List ℕ) (u : ℚ) (offs : List ℚ)
    (f : List ℕ → ℂ) : List ℕ → ℂ :=
  ((shape.zip (sizes.zip offs)).reverse).foldl
    (fun g p => contractStep p.1 p.2.1 u p.2.2 g) f

/-! ### Twiddle-factor algebra -/

theorem twiddle_add (a b : ℚ) : twiddle (a + b) = twiddle a * twiddle b := by
  unfold twiddle
  rw [← Complex.exp_add]
  congr 1
  push_cast
  ring

theorem twiddle_intCast (z : ℤ) : twiddle (z : ℚ) = 1 := by
  unfold twiddle
  have h : (-((z : ℚ) : ℂ)) * (2 * Real.pi * Complex.I)
      = ((-z : ℤ) : ℂ) * (2 * Real.pi * Complex.I) := by push_cast; ring
  rw [h, Complex.exp_int_mul_two_pi_mul_I]

theorem twiddle_zero : twiddle 0 = 1 := by
  simpa using twiddle_intCast 0

/-- With `upsample_factor = 1` and zero offset, the upsampling kernel of
`_upsampled_dft` is exactly the standard DFT matrix: the `fftfreq` wraparound
past the midpoint only shifts the exponent by the integer `-j`, which the
twiddle factor cannot see. -/
theorem kernelEntry_one_zero (n : ℕ) (j k : ℕ) :
    kernelEntry n 1 0 j k = twiddle (((j * k : ℕ) : ℚ) / (n : ℚ)) := by
  unfold kernelEntry fftfreq
  by_cases hk : k < (n + 1) / 2
  · rw [if_pos hk]
    congr 1
    push_cast
    ring
  · rw [if_neg hk]
    by_cases hn : (n : ℚ) = 0
    · simp [hn]
    · have hsplit : ((j : ℚ) - 0) * ((((k : ℤ) - (n : ℤ) : ℤ) : ℚ) / (1 * (n : ℚ)))
          = ((j * k : ℕ) : ℚ) / (n : ℚ) + ((-(j : ℤ) : ℤ) : ℚ) := by
        push_cast
        field_simp
        ring
      rw [hsplit, twiddle_add, twiddle_intCast, mul_one]

/-! ### The contraction loop evaluates the full DFT (claim C2 machinery) -/

theorem sum_map_flatMap {α β : Type} (l : List α) (h : α → List β)
    (g : β → ℂ) :
    ((l.flatMap h).map g).sum = (l.map fun a => ((h a).map g).sum).sum := by
  induction l with
  | nil => simp
  | cons a t ih => simp [List.flatMap_cons, ih]

theorem fftn_cons (n : ℕ) (rest : List ℕ) (f : List ℕ → ℂ) (j : ℕ)
    (idx : List ℕ) :
    fftn (n :: rest) f (j :: idx)
      = ((List.range n).map fun k =>
          twiddle (((j * k : ℕ) : ℚ) / (n : ℚ))
            * fftn rest (fun ks => f (k :: ks)) idx).sum := by
  unfold fftn sumIdx
  rw [show allIdx (n :: rest)
      = (List.range n).flatMap fun i => (allIdx rest).map (i :: ·) from rfl]
  rw [sum_map_flatMap]
  congr 1
  refine List.map_congr_left fun i _ => ?_
  rw [List.map_map]
  have hdot : ∀ ks, dotIdx (j :: idx) (i :: ks) (n :: rest)
      = ((j * i : ℕ) : ℚ) / (n : ℚ) + dotIdx idx ks rest := fun ks => rfl
  calc ((allIdx rest).map
        ((fun k => twiddle (dotIdx (j :: idx) k (n :: rest)) * f k) ∘ (i :: ·))).sum
      = ((allIdx rest).map fun ks =>
          twiddle (((j * i : ℕ) : ℚ) / (n : ℚ))
            * (twiddle (dotIdx idx ks rest) * f (i :: ks))).sum := by
        refine congrArg List.sum (List.map_congr_left fun ks _ => ?_)
        simp only [Function.comp_apply, hdot, twiddle_add, mul_assoc]
    _ = twiddle (((j * i : ℕ) : ℚ) / (n : ℚ))
          * ((allIdx rest).map fun ks =>
              twiddle (dotIdx idx ks rest) * f (i :: ks)).sum := by
        rw [List.sum_map_mul_left]

/-- Master induction for claim C2: running the reversed contraction loop with
`upsample_factor = 1`, region sizes equal to the shape and zero offsets over
the trailing axes computes the plain DFT over those axes, with any leading
index `lead` carried along untouched (it reappears appended at the end of the
output index, which is how `tensordot` cycles the axes). -/
theorem upsampled_dft_one_eq (rest : List ℕ) :
    ∀ (f : List ℕ → ℂ) (out lead : List ℕ), out.length = rest.length →
      upsampled_dft rest rest 1 (List.replicate rest.length 0) f (out ++ lead)
        = fftn rest (fun ks => f (lead ++ ks)) out := by
  induction rest with
  | nil =>
    intro f out lead hlen
    have hout : out = [] := List.length_eq_zero.mp hlen
    subst hout
    simp [upsampled_dft, fftn, sumIdx, allIdx, dotIdx, twiddle_zero]
  | cons n rest2 ih =>
    intro f out lead hlen
    match out, hlen with
    | j :: out2, hlen =>
      have hlen2 : out2.length = rest2.length := by
        simpa using hlen
      have hzip : (n :: rest2).zip ((n :: rest2).zip
            (List.replicate (n :: rest2).length 0))
          = (n, (n, (0 : ℚ))) :: rest2.zip (rest2.zip
              (List.replicate rest2.length 0)) := by
        simp [List.replicate_succ]
      have hfold :
          upsampled_dft (n :: rest2) (n :: rest2) 1
              (List.replicate (n :: rest2).length 0) f
            = contractStep n n 1 0
                (upsampled_dft rest2 rest2 1 (List.replicate rest2.length 0) f) := by
        unfold upsampled_dft
        rw [hzip, List.reverse_cons, List.foldl_append]
        rfl
      rw [hfold]
      show ((List.range n).map fun k =>
          kernelEntry n 1 0 j k
            * upsampled_dft rest2 rest2 1 (List.replicate rest2.length 0) f
                ((out2 ++ lead) ++ [k])).sum
        = fftn (n :: rest2) (fun ks => f (lead ++ ks)) (j :: out2)
      rw [fftn_cons]
      refine congrArg List.sum (List.map_congr_left fun k _ => ?_)
      rw [kernelEntry_one_zero, List.append_assoc,
        ih f out2 (lead ++ [k]) hlen2]
      congr 1
      refine congrArg (fun g => fftn rest2 g out2) ?_
      funext ks
      rw [List.append_assoc]
      rfl

/-! ### Peak location (`cp.argmax` over flattened magnitudes) -/

open Classical in
/-- Scan tail of the flattened value list: `b`/`v` are the best index and
value so far, `c` the position of the head of `l`.  A later element wins only
on a strict increase, so ties resolve to the earliest index, exactly as
`cp.argmax` does. -/
noncomputable def argmaxAux : List ℝ → ℕ → ℝ → ℕ → ℕ
  | [], b, _, _ => b
  | x :: xs, b, v, c => if v < x then argmaxAux xs c x (c + 1) else argmaxAux xs b v (c + 1)

/-- Index of the first maximal element of a list of magnitudes
(models `cp.argmax(cp.abs(...))` on the flattened array). -/
noncomputable def argmaxList : List ℝ → ℕ
  | [] => 0
  | x :: xs => argmaxAux xs 0 x 1

/-- Models `cp.unravel_index(cp.argmax(g), shape)`: the multi-index of the
first maximum of `g` in row-major order. -/
noncomputable def argmaxIdx (shape : List ℕ) (g : List ℕ → ℝ) : List ℕ :=
  (allIdx shape).getD (argmaxList ((allIdx shape).map g)) []

theorem argmaxAux_lt (xs : List ℝ) :
    ∀ (b : ℕ) (v : ℝ) (c : ℕ), b < c → argmaxAux xs b v c < c + xs.length := by
  induction xs with
  | nil => intro b v c hb; simpa [argmaxAux] using hb.trans_le (Nat.le_refl c)
  | cons x t ih =>
    intro b v c hb
    unfold argmaxAux
    by_cases h : v < x
    · rw [if_pos h]
      have := ih c x (c + 1) (Nat.lt_succ_self c)
      calc argmaxAux t c x (c + 1) < c + 1 + t.length := this
        _ = c + (x :: t).length := by simp [Nat.add_comm, Nat.add_assoc, Nat.add_left_comm]
    · rw [if_neg h]
      have := ih b v (c + 1) (hb.trans (Nat.lt_succ_self c))
      calc argmaxAux t b v (c + 1) < c + 1 + t.length := this
        _ = c + (x :: t).length := by simp [Nat.add_comm, Nat.add_assoc, Nat.add_left_comm]

theorem argmaxList_lt (l : List ℝ) (h : l ≠ []) : argmaxList l < l.length := by
  match l, h with
  | x :: xs, _ =>
    have := argmaxAux_lt xs 0 x 1 Nat.zero_lt_one
    simpa [argmaxList, Nat.add_comm] using this

/-! ### Multi-index enumeration facts -/

theorem mem_allIdx {shape idx : List ℕ} :
    idx ∈ allIdx shape ↔
      idx.length = shape.length ∧
        ∀ i, i < shape.length → idx.getD i 0 < shape.getD i 0 := by
  induction shape generalizing idx with
  | nil =>
    simp only [allIdx, List.mem_singleton]
    constructor
    · rintro rfl; exact ⟨rfl, fun i hi => by simp at hi⟩
    · rintro ⟨hlen, _⟩; exact List.length_eq_zero.mp hlen
  | cons n rest ih =>
    simp only [allIdx, List.mem_flatMap, List.mem_map, List.mem_range]
    constructor
    · rintro ⟨i, hi, ks, hks, rfl⟩
      obtain ⟨hlen, hbd⟩ := ih.mp hks
      refine ⟨by simp [hlen], fun m hm => ?_⟩
      cases m with
      | zero => simpa using hi
      | succ m => exact hbd m (by simpa using hm)
    · rintro ⟨hlen, hbd⟩
      match idx, hlen with
      | i :: ks, hlen =>
        refine ⟨i, by simpa using hbd 0 (by simp), ks, ih.mpr ⟨by simpa using hlen,
          fun m hm => by simpa using hbd (m + 1) (by simpa using hm)⟩, rfl⟩

theorem allIdx_ne_nil {shape : List ℕ} (h : ∀ n ∈ shape, 0 < n) :
    allIdx shape ≠ [] := by
  induction shape with
  | nil => simp [allIdx]
  | cons n rest ih =>
    have hn : 0 < n := h n (List.mem_cons_self n rest)
    have hrest := ih fun m hm => h m (List.mem_cons_of_mem n hm)
    simp only [allIdx, ne_eq, List.flatMap_eq_nil_iff, not_forall]
    refine ⟨0, List.mem_range.mpr hn, ?_⟩
    simpa [List.map_eq_nil_iff] using hrest

theorem argmaxIdx_mem {shape : List ℕ} (h : ∀ n ∈ shape, 0 < n)
    (g : List ℕ → ℝ) : argmaxIdx shape g ∈ allIdx shape := by
  unfold argmaxIdx
  have hne : allIdx shape ≠ [] := allIdx_ne_nil h
  have hlt : argmaxList ((allIdx shape).map g) < (allIdx shape).length := by
    have := argmaxList_lt ((allIdx shape).map g) (by simpa using hne)
    simpa using this
  rw [List.getD_eq_getElem _ _ hlt]
  exact List.getElem_mem _

/-! ### Shift post-processing -/

/-- Models `np.fix(axis_size / 2)` (source line 224): truncation of `n/2`
toward zero, which for a natural `n` is floor division. -/
def midpoints (n : ℕ) : ℚ := ((n / 2 : ℕ) : ℚ)

/-- Wraparound of the raw peak index into a signed shift (source lines
227-228): keep the index if it does not exceed the midpoint, else subtract
the axis length. -/
def coarseShifts (maxima shape : List ℕ) : List ℚ :=
  List.zipWith
    (fun (m n : ℕ) => if midpoints n < (m : ℚ) then (m : ℚ) - (n : ℚ) else (m : ℚ))
    maxima shape

/-- Models `np.around`: round half to even, numpy's rounding rule. -/
def roundHalfEven (x : ℚ) : ℤ :=
  if x - ⌊x⌋ < 1 / 2 then ⌊x⌋
  else if 1 / 2 < x - ⌊x⌋ then ⌊x⌋ + 1
  else if ⌊x⌋ % 2 = 0 then ⌊x⌋ else ⌊x⌋ + 1

/-- Snap a coarse shift onto the `1/upsample_factor` grid (source line 242):
`cp.around(shifts * upsample_factor) / upsample_factor`. -/
def snapShift (u x : ℚ) : ℚ := ((roundHalfEven (x * u) : ℤ) : ℚ) / u

/-- Size of the refinement window per axis (source line 243):
`math.ceil(upsample_factor * 1.5)`. -/
def windowSize (u : ℚ) : ℕ := (⌈u * (3 / 2 : ℚ)⌉).toNat

/-- Index of zero offset inside the refinement window (source line 245):
`np.fix(upsampled_region_size / 2.0)`. -/
def dftshift (u : ℚ) : ℚ := ((windowSize u / 2 : ℕ) : ℚ)

/-- Offsets handed to the upsampled DFT (source line 248):
`dftshift - shifts * upsample_factor`, with `shifts` already snapped. -/
def refineOffsets (u : ℚ) (snapped : List ℚ) : List ℚ :=
  snapped.map fun s => dftshift u - s * u

/-- Zero the shift of every axis of length 1 (source lines 276-278): a
single-sample axis carries no spatial information. -/
def zeroDegenerate (shape : List ℕ) (s : List ℚ) : List ℚ :=
  List.zipWith (fun n x => if n = 1 then (0 : ℚ) else x) shape s

/-- Models Python's `str.lower()` (`space.lower()`, source lines 205/209):
per-character lowercasing, written structurally so that concrete instances
reduce in the kernel. -/
def lowerStr (s : String) : String := ⟨s.data.map Char.toLower⟩

/-! ### Metrics -/

/-- Global phase difference (`_compute_phasediff`, source lines 84-94):
`arctan2(Im c, Re c)`, which is precisely the principal argument of `c`. -/
noncomputable def compute_phasediff (c : ℂ) : ℝ := Complex.arg c

/-- RMS error metric (`_compute_error`, source lines 97-113):
`sqrt(abs(1 - c * conj(c) / (src_amp * target_amp)))`. -/
noncomputable def compute_error (c : ℂ) (src_amp target_amp : ℝ) : ℝ :=
  Real.sqrt (Complex.abs
    ((1 : ℂ) - c * (starRingEnd ℂ) c / ((src_amp : ℂ) * (target_amp : ℂ))))

/-! ### The registration pipeline -/

/-- Cross-power spectrum (source line 217): `src_freq * target_freq.conj()`. -/
noncomputable def imageProduct (src tgt : List ℕ → ℂ) : List ℕ → ℂ :=
  fun k => src k * (starRingEnd ℂ) (tgt k)

/-- Coarse cross-correlation (source line 218): `fft.ifftn(image_product)`. -/
noncomputable def crossCorrelation (shape : List ℕ) (product : List ℕ → ℂ) :
    List ℕ → ℂ :=
  ifftn shape product

/-- Coarse peak (source lines 221-223): argmax of the correlation magnitude. -/
noncomputable def coarsePeak (shape : List ℕ) (cc : List ℕ → ℂ) : List ℕ :=
  argmaxIdx shape fun k => Complex.abs (cc k)

/-- Refinement window (source lines 249-252): conjugate of the upsampled DFT
of the conjugated cross-power spectrum, evaluated on a window of
`windowSize u` per axis at the offsets centred on the snapped coarse shift. -/
noncomputable def refineWindow (shape : List ℕ) (product : List ℕ → ℂ)
    (u : ℚ) (snapped : List ℚ) : List ℕ → ℂ :=
  fun k => (starRingEnd ℂ)
    (upsampled_dft shape (List.replicate shape.length (windowSize u)) u
      (refineOffsets u snapped) (fun j => (starRingEnd ℂ) (product j)) k)

/-- Peak of the refinement window (source lines 255-256). -/
noncomputable def refinePeak (shape : List ℕ) (product : List ℕ → ℂ)
    (u : ℚ) (snapped : List ℚ) : List ℕ :=
  argmaxIdx (List.replicate shape.length (windowSize u))
    fun k => Complex.abs (refineWindow shape product u snapped k)

/-- Map the window peak back to fractional shifts (source lines 259-264):
`snapped + (peak - dftshift) / upsample_factor` per axis. -/
def refinedShifts (u : ℚ) (snapped : List ℚ) (peak : List ℕ) : List ℚ :=
  List.zipWith (fun (s : ℚ) (m : ℕ) => s + ((m : ℚ) - dftshift u) / u)
    snapped peak

/-- Whole refinement stage (source lines 240-264): returns the refined
fractional shifts together with the window peak value `CCmax`. -/
noncomputable def refineStage (shape : List ℕ) (product : List ℕ → ℂ)
    (u : ℚ) (coarse : List ℚ) : List ℚ × ℂ :=
  let snapped := coarse.map (snapShift u)
  let peak := refinePeak shape product u snapped
  (refinedShifts u snapped peak, refineWindow shape product u snapped peak)

/-- Total squared-magnitude energy of a frequency-domain array
(source lines 232-235 and 267-272): `sum(abs(freq) ** 2)`. -/
noncomputable def sumEnergy (shape : List ℕ) (f : List ℕ → ℂ) : ℝ :=
  ((allIdx shape).map fun k => Complex.abs (f k) ^ 2).sum

/-- Normalized energy (source lines 236-237): `sum(abs(freq)**2) / size`. -/
noncomputable def meanEnergy (shape : List ℕ) (f : List ℕ → ℂ) : ℝ :=
  sumEnergy shape f / (shape.prod : ℝ)

/-- Failure modes of `phase_cross_correlation` (each a `ValueError` in the
source): shape mismatch (line 202), invalid `space` (line 213), NaN guard
(lines 283-289). -/
inductive PCCError
  | shapeMismatch
  | invalidSpace
  | nanError
deriving DecidableEq

/-- Result of `phase_cross_correlation`: the pass-through of the masked
collaborator, the bare shift vector (`return_error=False`), or the triple
shifts/error/phasediff. -/
inductive PCCOut (α : Type) where
  | masked (a : α)
  | shiftsOnly (s : List ℚ)
  | full (s : List ℚ) (err ph : ℝ)

/-- Shift vector carried by an unmasked result. -/
def PCCOut.outShifts {α : Type} : PCCOut α → Option (List ℚ)
  | .masked _ => none
  | .shiftsOnly s => some s
  | .full s _ _ => some s

/-- N-dimensional array: a shape and a total valuation on multi-indices. -/
structure NDArr where
  shape : List ℕ
  val : List ℕ → ℂ

/-- Everything after the `space` dispatch (source lines 215-294, minus the
NaN guard, which the idealized complex scalars cannot trigger and which the
`NanPCC` model below captures): coarse peak location, optional subpixel
refinement, degenerate-axis zeroing and metric computation. -/
noncomputable def pccCore {α : Type} (shape : List ℕ)
    (src_freq target_freq : List ℕ → ℂ) (u : ℚ) (return_error : Bool) :
    PCCOut α :=
  let product := imageProduct src_freq target_freq
  let cc := crossCorrelation shape product
  let maxima := coarsePeak shape cc
  let shifts := coarseShifts maxima shape
  if u = 1 then
    if return_error then
      .full (zeroDegenerate shape shifts)
        (compute_error (cc maxima) (meanEnergy shape src_freq)
          (meanEnergy shape target_freq))
        (compute_phasediff (cc maxima))
    else .shiftsOnly (zeroDegenerate shape shifts)
  else
    let r := refineStage shape product u shifts
    if return_error then
      .full (zeroDegenerate shape r.1)
        (compute_error r.2 (sumEnergy shape src_freq)
          (sumEnergy shape target_freq))
        (compute_phasediff r.2)
    else .shiftsOnly (zeroDegenerate shape r.1)

/-- Top-level orchestrator (`phase_cross_correlation`, source lines 116-294).
The masked collaborator `_masked_phase_cross_correlation` lives outside the
provided sources, so it is a parameter `masked`; its result is passed through
unchanged.  The guards appear in source order: mask dispatch (line 195),
shape check (line 201), `space` dispatch (lines 205-213). -/
noncomputable def phase_cross_correlation {α β : Type}
    (masked : NDArr → NDArr → Option β → Option β → ℚ → α)
    (reference_image moving_image : NDArr) (upsample_factor : ℚ)
    (space : String) (return_error : Bool)
    (reference_mask moving_mask : Option β) (overlap_ratio : ℚ) :
    Except PCCError (PCCOut α) :=
  if reference_mask.isSome || moving_mask.isSome then
    .ok (.masked (masked reference_image moving_image reference_mask
      moving_mask overlap_ratio))
  else if reference_image.shape ≠ moving_image.shape then
    .error .shapeMismatch
  else if lowerStr space = "fourier" then
    .ok (pccCore reference_image.shape reference_image.val moving_image.val
      upsample_factor return_error)
  else if lowerStr space = "real" then
    .ok (pccCore reference_image.shape
      (fftn reference_image.shape reference_image.val)
      (fftn moving_image.shape moving_image.val)
      upsample_factor return_error)
  else
    .error .invalidSpace

/-! ### Unfolding lemmas for the pipeline -/

theorem zeroDegenerate_getD_of_one (shape : List ℕ) (x : List ℚ) (dim : ℕ)
    (h : shape.getD dim 0 = 1) : (zeroDegenerate shape x).getD dim 0 = 0 := by
  unfold zeroDegenerate
  by_cases hlt : dim < (List.zipWith (fun n y => if n = 1 then (0 : ℚ) else y) shape x).length
  · rw [List.getD_eq_getElem _ _ hlt, List.getElem_zipWith]
    have hdim : dim < shape.length := by
      have := hlt
      rw [List.length_zipWith] at this
      exact this.trans_le (min_le_left _ _)
    have : shape[dim] = 1 := by
      rw [← List.getD_eq_getElem shape 0 hdim]
      exact h
    simp [this]
  · exact List.getD_eq_default _ _ (le_of_not_lt hlt)

theorem zeroDegenerate_getD_of_ne_one (shape : List ℕ) (x : List ℚ) (dim : ℕ)
    (hdim : dim < shape.length) (h : shape.getD dim 0 ≠ 1) :
    (zeroDegenerate shape x).getD dim 0 = x.getD dim 0 := by
  unfold zeroDegenerate
  by_cases hx : dim < x.length
  · have hlt : dim < (List.zipWith (fun n y => if n = 1 then (0 : ℚ) else y) shape x).length := by
      rw [List.length_zipWith]; exact lt_min hdim hx
    rw [List.getD_eq_getElem _ _ hlt, List.getElem_zipWith,
      List.getD_eq_getElem _ _ hx]
    have : ¬ shape[dim] = 1 := by
      rw [← List.getD_eq_getElem shape 0 hdim]; exact h
    simp [this]
  · have h1 : (List.zipWith (fun n y => if n = 1 then (0 : ℚ) else y) shape x).length ≤ dim := by
      rw [List.length_zipWith]
      exact le_trans (min_le_right _ _) (le_of_not_lt hx)
    rw [List.getD_eq_default _ _ h1, List.getD_eq_default _ _ (le_of_not_lt hx)]

theorem pccCore_one {α : Type} (shape : List ℕ) (sf tf : List ℕ → ℂ)
    (re : Bool) :
    pccCore (α := α) shape sf tf 1 re =
      (if re then
        PCCOut.full
          (zeroDegenerate shape (coarseShifts
            (coarsePeak shape (crossCorrelation shape (imageProduct sf tf))) shape))
          (compute_error
            (crossCorrelation shape (imageProduct sf tf)
              (coarsePeak shape (crossCorrelation shape (imageProduct sf tf))))
            (meanEnergy shape sf) (meanEnergy shape tf))
          (compute_phasediff
            (crossCorrelation shape (imageProduct sf tf)
              (coarsePeak shape (crossCorrelation shape (imageProduct sf tf)))))
      else
        PCCOut.shiftsOnly (zeroDegenerate shape (coarseShifts
          (coarsePeak shape (crossCorrelation shape (imageProduct sf tf))) shape))) := by
  cases re <;> simp [pccCore]

theorem pccCore_ne_one {α : Type} (shape : List ℕ) (sf tf : List ℕ → ℂ)
    (u : ℚ) (re : Bool) (hu : u ≠ 1) :
    pccCore (α := α) shape sf tf u re =
      (if re then
        PCCOut.full
          (zeroDegenerate shape
            (refineStage shape (imageProduct sf tf) u
              (coarseShifts
                (coarsePeak shape (crossCorrelation shape (imageProduct sf tf)))
                shape)).1)
          (compute_error
            (refineStage shape (imageProduct sf tf) u
              (coarseShifts
                (coarsePeak shape (crossCorrelation shape (imageProduct sf tf)))
                shape)).2
            (sumEnergy shape sf) (sumEnergy shape tf))
          (compute_phasediff
            (refineStage shape (imageProduct sf tf) u
              (coarseShifts
                (coarsePeak shape (crossCorrelation shape (imageProduct sf tf)))
                shape)).2)
      else
        PCCOut.shiftsOnly (zeroDegenerate shape
          (refineStage shape (imageProduct sf tf) u
            (coarseShifts
              (coarsePeak shape (crossCorrelation shape (imageProduct sf tf)))
              shape)).1)) := by
  cases re <;> simp [pccCore, hu]

/-- Frequency-domain array a maskless call works on, as a function of the
(valid) `space` argument: the input itself for `"fourier"`, its forward FFT
for `"real"` (source lines 204-211). -/
noncomputable def freqOf (space : String) (a : NDArr) : List ℕ → ℂ :=
  if lowerStr space = "fourier" then a.val else fftn a.shape a.val

theorem pcc_unmasked {α β : Type}
    (masked : NDArr → NDArr → Option β → Option β → ℚ → α)
    (ref mov : NDArr) (u : ℚ) (space : String) (re : Bool) (ratio : ℚ)
    (out : PCCOut α)
    (hout : phase_cross_correlation masked ref mov u space re
      (none : Option β) none ratio = .ok out) :
    ref.shape = mov.shape ∧
      out = pccCore ref.shape (freqOf space ref) (freqOf space mov) u re := by
  unfold phase_cross_correlation at hout
  simp only [Option.isSome_none, Bool.or_self, Bool.false_eq_true, if_false] at hout
  by_cases hsh : ref.shape ≠ mov.shape
  · rw [if_pos hsh] at hout
    exact absurd hout (by simp)
  · rw [if_neg hsh] at hout
    refine ⟨not_ne_iff.mp hsh, ?_⟩
    by_cases hf : lowerStr space = "fourier"
    · rw [if_pos hf] at hout
      simp only [freqOf, if_pos hf]
      exact (Except.ok.injEq _ _ |>.mp hout).symm
    · rw [if_neg hf] at hout
      by_cases hr : lowerStr space = "real"
      · rw [if_pos hr] at hout
        simp only [freqOf, if_neg hf]
        exact (Except.ok.injEq _ _ |>.mp hout).symm
      · rw [if_neg hr] at hout
        exact absurd hout (by simp)

end PhaseCorr

namespace NanPCC

/-!
NaN-refined embedding of the same source, for the claims about the NaN guard
(source lines 280-289).  IEEE-754 scalars are `Option ℂ` / `Option ℝ`, with
`none` standing for NaN: every arithmetic operation propagates `none`, every
ordered comparison involving `none` is false, and `cp.isnan` is `Option.isNone`.
Only the maskless path is refined here (the mask dispatch at source line 195
leaves this code entirely and is covered by the main model); infinities and
rounding stay idealized as in the main model.
-/

open PhaseCorr (allIdx twiddle dotIdx midpoints coarseShifts snapShift
  windowSize dftshift refineOffsets zeroDegenerate refinedShifts PCCError
  compute_error compute_phasediff lowerStr)

/-- NaN-propagating lift of a binary operation. -/
def nlift2 {γ δ ε : Type} (f : γ → δ → ε) : Option γ → Option δ → Option ε
  | some x, some y => some (f x y)
  | _, _ => none

/-- NaN-propagating complex multiplication. -/
def nmul : Option ℂ → Option ℂ → Option ℂ := nlift2 (· * ·)

/-- NaN-propagating complex conjugation (conjugation of NaN stays NaN). -/
def nconj : Option ℂ → Option ℂ := Option.map (starRingEnd ℂ)

/-- NaN-propagating magnitude. -/
noncomputable def nabs : Option ℂ → Option ℝ := Option.map Complex.abs

/-- NaN-propagating squared magnitude (`abs` then in-place square, source
lines 232-235 / 267-271). -/
noncomputable def nabsSq : Option ℂ → Option ℝ := Option.map fun z => Complex.abs z ^ 2

/-- NaN-propagating sum of a list of scalars. -/
def nsum {γ : Type} [Add γ] [Zero γ] (l : List (Option γ)) : Option γ :=
  l.foldr (nlift2 (· + ·)) (some 0)

theorem nlift2_none_left {γ δ ε : Type} (f : γ → δ → ε) (b : Option δ) :
    nlift2 f none b = none := by cases b <;> rfl

theorem nlift2_none_right {γ δ ε : Type} (f : γ → δ → ε) (a : Option γ) :
    nlift2 f a none = none := by cases a <;> rfl

theorem nsum_eq_none {γ : Type} [Add γ] [Zero γ] (l : List (Option γ))
    (h : none ∈ l) : nsum l = none := by
  induction l with
  | nil => cases h
  | cons a t ih =>
    rcases List.mem_cons.mp h with rfl | ht
    · simp [nsum, nlift2_none_left]
    · show nlift2 (· + ·) a (nsum t) = none
      rw [ih ht, nlift2_none_right]

/-- NaN-aware IEEE `<`: false whenever either side is NaN. -/
def nlt (a b : Option ℝ) : Prop := ∃ x y, a = some x ∧ b = some y ∧ x < y

/-- Twiddle factors are computed from finite inputs and are never NaN. -/
noncomputable def twiddleN (q : ℚ) : Option ℂ := some (twiddle q)

/-- NaN-propagating forward FFT (same collaborator as `PhaseCorr.fftn`). -/
noncomputable def fftnN (shape : List ℕ) (f : List ℕ → Option ℂ) :
    List ℕ → Option ℂ :=
  fun idx => nsum ((allIdx shape).map fun k => nmul (twiddleN (dotIdx idx k shape)) (f k))

/-- NaN-propagating inverse FFT (same collaborator as `PhaseCorr.ifftn`). -/
noncomputable def ifftnN (shape : List ℕ) (f : List ℕ → Option ℂ) :
    List ℕ → Option ℂ :=
  fun idx => Option.map (· / (shape.prod : ℂ))
    (nsum ((allIdx shape).map fun k => nmul (twiddleN (-dotIdx idx k shape)) (f k)))

/-- NaN-propagating kernel entry of `_upsampled_dft`. -/
noncomputable def kernelEntryN (n : ℕ) (u off : ℚ) (j k : ℕ) : Option ℂ :=
  some (PhaseCorr.kernelEntry n u off j k)

/-- NaN-propagating loop body of `_upsampled_dft`. -/
noncomputable def contractStepN (n sz : ℕ) (u off : ℚ)
    (f : List ℕ → Option ℂ) : List ℕ → Option ℂ
  | [] => f []
  | j :: rest =>
    nsum ((List.range n).map fun k => nmul (kernelEntryN n u off j k) (f (rest ++ [k])))

/-- NaN-propagating `_upsampled_dft`. -/
noncomputable def upsampled_dftN (shape sizes : List ℕ) (u : ℚ) (offs : List ℚ)
    (f : List ℕ → Option ℂ) : List ℕ → Option ℂ :=
  ((shape.zip (sizes.zip offs)).reverse).foldl
    (fun g p => contractStepN p.1 p.2.1 u p.2.2 g) f

open Classical in
/-- NaN-aware argmax scan; with IEEE comparisons a NaN never displaces the
current best, matching numpy's first-NaN-wins flattened scan on the all-NaN
arrays this model ever feeds it. -/
noncomputable def argmaxAuxN : List (Option ℝ) → ℕ → Option ℝ → ℕ → ℕ
  | [], b, _, _ => b
  | x :: xs, b, v, c => if nlt v x then argmaxAuxN xs c x (c + 1) else argmaxAuxN xs b v (c + 1)

noncomputable def argmaxListN : List (Option ℝ) → ℕ
  | [] => 0
  | x :: xs => argmaxAuxN xs 0 x 1

noncomputable def argmaxIdxN (shape : List ℕ) (g : List ℕ → Option ℝ) : List ℕ :=
  (allIdx shape).getD (argmaxListN ((allIdx shape).map g)) []

/-- NaN-propagating `_compute_error`. -/
noncomputable def compute_errorN (c : Option ℂ) (sa ta : Option ℝ) : Option ℝ :=
  match c, sa, ta with
  | some c, some sa, some ta => some (compute_error c sa ta)
  | _, _, _ => none

/-- NaN-propagating `_compute_phasediff`. -/
noncomputable def compute_phasediffN (c : Option ℂ) : Option ℝ :=
  Option.map Complex.arg c

/-- Result of a maskless call in the NaN-refined model. -/
inductive NOut where
  | shiftsOnly (s : List ℚ)
  | full (s : List ℚ) (err ph : Option ℝ)

/-- N-dimensional array over NaN-extended complex scalars. -/
structure NArr where
  shape : List ℕ
  val : List ℕ → Option ℂ

/-- Per-image amplitude of the `upsample_factor == 1` branch (source lines
232-237): mean of squared magnitudes. -/
noncomputable def meanEnergyN (shape : List ℕ) (f : List ℕ → Option ℂ) : Option ℝ :=
  Option.map (· / (shape.prod : ℝ)) (nsum ((allIdx shape).map fun k => nabsSq (f k)))

/-- Per-image amplitude of the refinement branch (source lines 266-272):
plain sum of squared magnitudes. -/
noncomputable def sumEnergyN (shape : List ℕ) (f : List ℕ → Option ℂ) : Option ℝ :=
  nsum ((allIdx shape).map fun k => nabsSq (f k))

/-- NaN-refined core (source lines 215-294) with the NaN guard of lines
280-289 in place: when `return_error` is requested and `CCmax`, `src_amp` or
`target_amp` is NaN, the call fails with the NaN-specific error. -/
noncomputable def pccCoreN (shape : List ℕ)
    (src_freq target_freq : List ℕ → Option ℂ) (u : ℚ) (return_error : Bool) :
    Except PCCError NOut :=
  let product := fun k => nmul (src_freq k) (nconj (target_freq k))
  let cc := ifftnN shape product
  let maxima := argmaxIdxN shape fun k => nabs (cc k)
  let shifts := coarseShifts maxima shape
  if u = 1 then
    if return_error then
      let src_amp := meanEnergyN shape src_freq
      let target_amp := meanEnergyN shape target_freq
      let CCmax := cc maxima
      if CCmax.isNone || src_amp.isNone || target_amp.isNone then
        .error .nanError
      else
        .ok (.full (zeroDegenerate shape shifts)
          (compute_errorN CCmax src_amp target_amp) (compute_phasediffN CCmax))
    else .ok (.shiftsOnly (zeroDegenerate shape shifts))
  else
    let snapped := shifts.map (snapShift u)
    let window := fun k => nconj
      (upsampled_dftN shape (List.replicate shape.length (windowSize u)) u
        (refineOffsets u snapped) (fun j => nconj (product j)) k)
    let peak := argmaxIdxN (List.replicate shape.length (windowSize u))
      fun k => nabs (window k)
    let CCmax := window peak
    let rshifts := refinedShifts u snapped peak
    if return_error then
      let src_amp := sumEnergyN shape src_freq
      let target_amp := sumEnergyN shape target_freq
      if CCmax.isNone || src_amp.isNone || target_amp.isNone then
        .error .nanError
      else
        .ok (.full (zeroDegenerate shape rshifts)
          (compute_errorN CCmax src_amp target_amp) (compute_phasediffN CCmax))
    else .ok (.shiftsOnly (zeroDegenerate shape rshifts))

/-- NaN-refined maskless `phase_cross_correlation` (source lines 200-294):
shape guard, `space` dispatch, then the core. -/
noncomputable def pccN (reference_image moving_image : NArr) (u : ℚ)
    (space : String) (return_error : Bool) : Except PCCError NOut :=
  if reference_image.shape ≠ moving_image.shape then .error .shapeMismatch
  else if lowerStr space = "fourier" then
    pccCoreN reference_image.shape reference_image.val moving_image.val u
      return_error
  else if lowerStr space = "real" then
    pccCoreN reference_image.shape
      (fftnN reference_image.shape reference_image.val)
      (fftnN moving_image.shape moving_image.val) u return_error
  else .error .invalidSpace

/-! ### NaN propagation through the pipeline -/

theorem sumEnergyN_none (shape : List ℕ) (f : List ℕ → Option ℂ)
    (h : ∃ idx ∈ allIdx shape, f idx = none) : sumEnergyN shape f = none := by
  obtain ⟨idx, hmem, hval⟩ := h
  apply nsum_eq_none
  refine List.mem_map.mpr ⟨idx, hmem, ?_⟩
  rw [hval]
  rfl

theorem meanEnergyN_none (shape : List ℕ) (f : List ℕ → Option ℂ)
    (h : ∃ idx ∈ allIdx shape, f idx = none) : meanEnergyN shape f = none := by
  obtain ⟨idx, hmem, hval⟩ := h
  have : nsum ((allIdx shape).map fun k => nabsSq (f k)) = none := by
    apply nsum_eq_none
    refine List.mem_map.mpr ⟨idx, hmem, ?_⟩
    rw [hval]
    rfl
  unfold meanEnergyN
  rw [this]
  rfl

theorem fftnN_none (shape : List ℕ) (f : List ℕ → Option ℂ)
    (h : ∃ idx ∈ allIdx shape, f idx = none) (j : List ℕ) :
    fftnN shape f j = none := by
  obtain ⟨idx, hmem, hval⟩ := h
  apply nsum_eq_none
  refine List.mem_map.mpr ⟨idx, hmem, ?_⟩
  rw [hval]
  exact nlift2_none_right _ _

/-- With `return_error` requested, a NaN amplitude on either side trips the
guard of source lines 280-289, in both the coarse-only and the refinement
branch. -/
theorem pccCoreN_nanError (shape : List ℕ) (sf tf : List ℕ → Option ℂ)
    (u : ℚ)
    (h : sumEnergyN shape sf = none ∨ sumEnergyN shape tf = none) :
    pccCoreN shape sf tf u true = .error .nanError := by
  have hmean : meanEnergyN shape sf = none ∨ meanEnergyN shape tf = none := by
    rcases h with h | h
    · exact Or.inl (by unfold meanEnergyN; rw [show nsum ((allIdx shape).map
        fun k => nabsSq (sf k)) = none from h]; rfl)
    · exact Or.inr (by unfold meanEnergyN; rw [show nsum ((allIdx shape).map
        fun k => nabsSq (tf k)) = none from h]; rfl)
  unfold pccCoreN
  by_cases hu : u = 1
  · rw [if_pos hu]
    rcases hmean with hm | hm <;> simp [hm]
  · rw [if_neg hu]
    rcases h with hs | hs <;> simp [hs]

end NanPCC

/-! ## Claims C1 to C10 -/

open PhaseCorr

/-- C1 counterexample: the claim asserts the NaN failure for all values of
`return_error`, but the NaN guard of source lines 280-289 sits inside the
`if return_error:` block.  For the 1-sample pair whose single entry is NaN,
the call with `return_error=False` returns a shift vector (no error at all)
instead of failing with the NaN-specific error. -/
theorem C1_counterexample :
    (([0] ∈ allIdx [1]) ∧ ((fun _ : List ℕ => (none : Option ℂ)) [0] = none))
      ∧ NanPCC.pccN ⟨[1], fun _ => none⟩ ⟨[1], fun _ => none⟩ 1 "fourier" false
          = .ok (.shiftsOnly [0]) := by
  refine ⟨⟨by decide, rfl⟩, ?_⟩
  unfold NanPCC.pccN
  rw [if_neg (by simp), if_pos (by decide)]
  unfold NanPCC.pccCoreN
  rw [if_pos rfl]
  simp only [Bool.false_eq_true, if_false]
  have hidx : allIdx [1] = [[0]] := rfl
  have hmax : NanPCC.argmaxIdxN [1]
      (fun k => NanPCC.nabs (NanPCC.ifftnN [1]
        (fun j => NanPCC.nmul ((fun _ : List ℕ => (none : Option ℂ)) j)
          (NanPCC.nconj ((fun _ : List ℕ => (none : Option ℂ)) j))) k)) = [0] := rfl
  rw [hmax]
  have hshift : coarseShifts [0] [1] = [0] := by
    unfold coarseShifts midpoints
    norm_num
  rw [hshift]
  have hzero : zeroDegenerate [1] [0] = [0] := by
    unfold zeroDegenerate
    norm_num
  rw [hzero]

/-- C1 (amended): for every reference/moving pair containing NaN values, when
no masks are supplied and `return_error` is requested, the call fails with
the NaN-specific invalid-input error, for every `upsample_factor` and valid
`space`; with `return_error=False` the guard is skipped. -/
theorem C1_amended_nan_guard (ref mov : NanPCC.NArr) (u : ℚ) (space : String)
    (hsh : ref.shape = mov.shape)
    (hspace : lowerStr space = "fourier" ∨ lowerStr space = "real")
    (hnan : ∃ idx ∈ allIdx ref.shape, ref.val idx = none ∨ mov.val idx = none) :
    NanPCC.pccN ref mov u space true = .error .nanError := by
  unfold NanPCC.pccN
  rw [if_neg (by simp [hsh])]
  have hcore : ∀ sf tf : List ℕ → Option ℂ,
      (NanPCC.sumEnergyN ref.shape sf = none ∨
        NanPCC.sumEnergyN ref.shape tf = none) →
      NanPCC.pccCoreN ref.shape sf tf u true = .error .nanError :=
    fun sf tf h => NanPCC.pccCoreN_nanError ref.shape sf tf u h
  rcases hspace with hf | hr
  · rw [if_pos hf]
    apply hcore
    obtain ⟨idx, hmem, hval | hval⟩ := hnan
    · exact Or.inl (NanPCC.sumEnergyN_none _ _ ⟨idx, hmem, hval⟩)
    · exact Or.inr (NanPCC.sumEnergyN_none _ _ ⟨idx, hmem, hval⟩)
  · have hnf : lowerStr space ≠ "fourier" := by rw [hr]; decide
    rw [if_neg hnf, if_pos hr]
    apply hcore
    obtain ⟨idx, hmem, hval | hval⟩ := hnan
    · exact Or.inl (NanPCC.sumEnergyN_none _ _
        ⟨idx, hmem, NanPCC.fftnN_none _ _ ⟨idx, hmem, hval⟩ idx⟩)
    · refine Or.inr (NanPCC.sumEnergyN_none _ _
        ⟨idx, hmem, NanPCC.fftnN_none _ _ ⟨idx, ?_, hval⟩ idx⟩)
      rw [← hsh]
      exact hmem

/-- C1 witness: a concrete 1-sample NaN pair with `return_error=True` and
`space="real"` fails with the NaN error. -/
theorem C1_amended_nan_guard_witness :
    NanPCC.pccN ⟨[1], fun _ => none⟩ ⟨[1], fun _ => none⟩ 7 "real" true
      = .error .nanError :=
  C1_amended_nan_guard ⟨[1], fun _ => none⟩ ⟨[1], fun _ => none⟩ 7 "real" rfl
    (Or.inr (by decide)) ⟨[0], by decide, Or.inl rfl⟩

/-- C2: for every complex input array, the upsampled DFT evaluator with
`upsample_factor = 1`, `upsampled_region_size` equal to the input shape and
zero offsets on every axis returns the ordinary unshifted N-dimensional DFT
of the input — exactly, in the idealized arithmetic, hence within floating
tolerance. -/
theorem C2_upsampled_dft_is_dft (shape : List ℕ) (f : List ℕ → ℂ)
    (idx : List ℕ) (h : idx.length = shape.length) :
    upsampled_dft shape shape 1 (List.replicate shape.length 0) f idx
      = fftn shape f idx := by
  have h2 := upsampled_dft_one_eq shape f idx [] h
  simpa using h2

/-- C2 witness: concrete two-point array, second output sample. -/
theorem C2_upsampled_dft_is_dft_witness :
    upsampled_dft [2] [2] 1 (List.replicate ([2] : List ℕ).length 0)
        (fun _ => 1) [1]
      = fftn [2] (fun _ => 1) [1] :=
  C2_upsampled_dft_is_dft [2] (fun _ => 1) [1] rfl

/-- C6: the RMS error is `sqrt(abs(1 - CCmax * conj(CCmax) / (src_amp *
target_amp)))`; the absolute value makes the square-root argument
nonnegative, and the result is a real number `≥ 0`. -/
theorem C6_error_formula_nonneg (c : ℂ) (sa ta : ℝ) (hsa : 0 < sa)
    (hta : 0 < ta) :
    compute_error c sa ta
        = Real.sqrt (Complex.abs
            ((1 : ℂ) - c * (starRingEnd ℂ) c / ((sa : ℂ) * (ta : ℂ))))
      ∧ 0 ≤ Complex.abs
          ((1 : ℂ) - c * (starRingEnd ℂ) c / ((sa : ℂ) * (ta : ℂ)))
      ∧ 0 ≤ compute_error c sa ta :=
  ⟨rfl, AbsoluteValue.nonneg _ _, Real.sqrt_nonneg _⟩

/-- C6 witness at `CCmax = 1`, `src_amp = target_amp = 1`. -/
theorem C6_error_formula_nonneg_witness :
    (0 : ℝ) < 1 ∧ 0 ≤ compute_error 1 1 1 :=
  ⟨one_pos, (C6_error_formula_nonneg 1 1 1 one_pos one_pos).2.2⟩

/-- C7: for any maskless reference/moving pair with differing shapes, the
call fails with the shape-mismatch error for every `upsample_factor`,
`space` and `return_error`; the statement quantifies over arbitrary array
contents, so the failure cannot depend on any numeric work on them. -/
theorem C7_shape_mismatch {α β : Type}
    (masked : NDArr → NDArr → Option β → Option β → ℚ → α)
    (ref mov : NDArr) (u : ℚ) (space : String) (re : Bool) (ratio : ℚ)
    (h : ref.shape ≠ mov.shape) :
    phase_cross_correlation masked ref mov u space re (none : Option β) none
        ratio = .error .shapeMismatch := by
  unfold phase_cross_correlation
  rw [if_neg (by simp), if_pos h]

/-- C7 witness: shapes `[1]` versus `[2]`. -/
theorem C7_shape_mismatch_witness :
    phase_cross_correlation (fun _ _ _ _ _ => ()) ⟨[1], fun _ => 0⟩
        ⟨[2], fun _ => 0⟩ 5 "real" true (none : Option Unit) none (3 / 10)
      = .error .shapeMismatch :=
  C7_shape_mismatch _ ⟨[1], fun _ => 0⟩ ⟨[2], fun _ => 0⟩ 5 "real" true
    (3 / 10) (by decide)

/-- C8: for a maskless call (with matching shapes, the check that precedes
the `space` dispatch), a `space` that is neither `"real"` nor `"fourier"`
case-insensitively fails with the invalid-argument error for arbitrary array
contents; any casing of `"fourier"` behaves as `"fourier"` (inputs used
directly as frequency-domain arrays); and `"real"` is exactly `"fourier"`
after forward-FFT of both inputs. -/
theorem C8_space_validation {α β : Type}
    (masked : NDArr → NDArr → Option β → Option β → ℚ → α)
    (ref mov : NDArr) (u : ℚ) (re : Bool) (ratio : ℚ)
    (hsh : ref.shape = mov.shape) :
    (∀ space : String, lowerStr space ≠ "fourier" → lowerStr space ≠ "real" →
        phase_cross_correlation masked ref mov u space re (none : Option β)
          none ratio = .error .invalidSpace)
      ∧ (∀ space : String, lowerStr space = "fourier" →
          phase_cross_correlation masked ref mov u space re (none : Option β)
              none ratio
            = phase_cross_correlation masked ref mov u "fourier" re
                (none : Option β) none ratio)
      ∧ phase_cross_correlation masked ref mov u "real" re (none : Option β)
            none ratio
          = phase_cross_correlation masked ⟨ref.shape, fftn ref.shape ref.val⟩
              ⟨mov.shape, fftn mov.shape mov.val⟩ u "fourier" re
              (none : Option β) none ratio := by
  refine ⟨?_, ?_, ?_⟩
  · intro space h1 h2
    unfold phase_cross_correlation
    rw [if_neg (by simp), if_neg (by simp [hsh]), if_neg h1, if_neg h2]
  · intro space hf
    unfold phase_cross_correlation
    by_cases hsh2 : ref.shape ≠ mov.shape
    · rw [if_neg (by simp), if_pos hsh2, if_neg (by simp), if_pos hsh2]
    · rw [if_neg (by simp), if_neg hsh2, if_pos hf, if_neg (by simp),
        if_neg hsh2, if_pos (by decide)]
  · unfold phase_cross_correlation
    by_cases hsh2 : ref.shape ≠ mov.shape
    · rw [if_neg (by simp), if_pos hsh2, if_neg (by simp), if_pos hsh2]
    · rw [if_neg (by simp), if_neg hsh2, if_neg (by decide), if_pos (by decide),
        if_neg (by simp), if_neg hsh2, if_pos (by decide)]

/-- C8 witness: concrete rejection of `"BOGUS"`, case-insensitive
acceptance of `"FOURIER"`, and real/fourier agreement, on a 1-sample pair. -/
theorem C8_space_validation_witness :
    (phase_cross_correlation (fun _ _ _ _ _ => ()) ⟨[1], fun _ => 0⟩
        ⟨[1], fun _ => 0⟩ 3 "BOGUS" false (none : Option Unit) none 0
      = .error .invalidSpace)
      ∧ (phase_cross_correlation (fun _ _ _ _ _ => ()) ⟨[1], fun _ => 0⟩
            ⟨[1], fun _ => 0⟩ 3 "FOURIER" false (none : Option Unit) none 0
          = phase_cross_correlation (fun _ _ _ _ _ => ()) ⟨[1], fun _ => 0⟩
              ⟨[1], fun _ => 0⟩ 3 "fourier" false (none : Option Unit) none 0)
      ∧ phase_cross_correlation (fun _ _ _ _ _ => ()) ⟨[1], fun _ => 0⟩
            ⟨[1], fun _ => 0⟩ 3 "real" false (none : Option Unit) none 0
          = phase_cross_correlation (fun _ _ _ _ _ => ())
              ⟨[1], fftn [1] (fun _ => 0)⟩ ⟨[1], fftn [1] (fun _ => 0)⟩ 3
              "fourier" false (none : Option Unit) none 0 := by
  have h := C8_space_validation (α := Unit) (β := Unit) (fun _ _ _ _ _ => ())
    (⟨[1], fun _ => 0⟩ : NDArr) ⟨[1], fun _ => 0⟩ 3 false 0 rfl
  exact ⟨h.1 "BOGUS" (by decide) (by decide), h.2.1 "FOURIER" (by decide), h.2.2⟩

/-- C9: if either mask is supplied, control transfers entirely to the
masked-correlation collaborator with `(reference_image, moving_image,
reference_mask, moving_mask, overlap_ratio)` and its result is returned
unchanged, bypassing the shape and space validation and the whole numeric
pipeline, for all `upsample_factor`, `space` and `return_error`. -/
theorem C9_masked_dispatch {α β : Type}
    (masked : NDArr → NDArr → Option β → Option β → ℚ → α)
    (ref mov : NDArr) (u : ℚ) (space : String) (re : Bool)
    (rm mm : Option β) (ratio : ℚ) (h : rm.isSome ∨ mm.isSome) :
    phase_cross_correlation masked ref mov u space re rm mm ratio
      = .ok (.masked (masked ref mov rm mm ratio)) := by
  unfold phase_cross_correlation
  have hb : (rm.isSome || mm.isSome) = true := by
    rcases h with h | h <;> simp [h]
  rw [if_pos hb]

/-- C9 witness: a mask forces the collaborator's answer through even with
mismatched shapes and an invalid `space`. -/
theorem C9_masked_dispatch_witness :
    phase_cross_correlation (fun _ _ _ _ _ => (0 : ℕ)) ⟨[1], fun _ => 0⟩
        ⟨[2], fun _ => 0⟩ 4 "bogus" true (some ()) none (1 / 2)
      = .ok (.masked 0) :=
  C9_masked_dispatch _ ⟨[1], fun _ => 0⟩ ⟨[2], fun _ => 0⟩ 4 "bogus" true
    (some ()) none (1 / 2) (Or.inl rfl)

/-! ### List indexing helpers -/

theorem getD_zipWith {γ δ ε : Type} (f : γ → δ → ε) (a : List γ) (b : List δ)
    (i : ℕ) (dg : γ) (dd : δ) (de : ε) (ha : i < a.length)
    (hb : i < b.length) :
    (List.zipWith f a b).getD i de = f (a.getD i dg) (b.getD i dd) := by
  have hz : i < (List.zipWith f a b).length := by
    rw [List.length_zipWith]
    exact lt_min ha hb
  rw [List.getD_eq_getElem _ _ hz, List.getD_eq_getElem _ _ ha,
    List.getD_eq_getElem _ _ hb, List.getElem_zipWith]

theorem getD_map_of_lt {γ δ : Type} (f : γ → δ) (a : List γ) (i : ℕ) (dg : γ)
    (dd : δ) (ha : i < a.length) :
    (a.map f).getD i dd = f (a.getD i dg) := by
  have hm : i < (a.map f).length := by simpa using ha
  rw [List.getD_eq_getElem _ _ hm, List.getD_eq_getElem _ _ ha,
    List.getElem_map]

theorem windowSize_pos (u : ℚ) (hu : 1 < u) : 0 < windowSize u := by
  have h1 : (0 : ℚ) < u * (3 / 2) := by nlinarith
  have h2 : 0 < ⌈u * (3 / 2 : ℚ)⌉ := Int.ceil_pos.mpr h1
  unfold windowSize
  omega

/-! ### Shift vector shapes of the two branches -/

theorem pccCore_outShifts_zero {α : Type} (shape : List ℕ)
    (sf tf : List ℕ → ℂ) (u : ℚ) (re : Bool) :
    ∃ x, (pccCore (α := α) shape sf tf u re).outShifts
      = some (zeroDegenerate shape x) := by
  by_cases hu : u = 1
  · subst hu
    rw [pccCore_one]
    cases re
    · exact ⟨_, rfl⟩
    · exact ⟨_, rfl⟩
  · rw [pccCore_ne_one _ _ _ _ _ hu]
    cases re
    · exact ⟨_, rfl⟩
    · exact ⟨_, rfl⟩

theorem pccCore_one_outShifts {α : Type} (shape : List ℕ)
    (sf tf : List ℕ → ℂ) (re : Bool) :
    (pccCore (α := α) shape sf tf 1 re).outShifts
      = some (zeroDegenerate shape (coarseShifts
          (coarsePeak shape (crossCorrelation shape (imageProduct sf tf)))
          shape)) := by
  rw [pccCore_one]
  cases re
  · rfl
  · rfl

theorem pccCore_ne_one_outShifts {α : Type} (shape : List ℕ)
    (sf tf : List ℕ → ℂ) (u : ℚ) (re : Bool) (hu : u ≠ 1) :
    (pccCore (α := α) shape sf tf u re).outShifts
      = some (zeroDegenerate shape
          (refineStage shape (imageProduct sf tf) u
            (coarseShifts
              (coarsePeak shape (crossCorrelation shape (imageProduct sf tf)))
              shape)).1) := by
  rw [pccCore_ne_one _ _ _ _ _ hu]
  cases re
  · rfl
  · rfl

/-- C4: for every maskless call that returns, an axis of length 1 in the
input shape yields a returned shift component of exactly 0, for every
`upsample_factor`, `space`, `return_error` and array contents — the zeroing
is a final pass over the shift vector, after both the coarse and the refined
computation. -/
theorem C4_degenerate_axis_zero {α β : Type}
    (masked : NDArr → NDArr → Option β → Option β → ℚ → α)
    (ref mov : NDArr) (u : ℚ) (space : String) (re : Bool) (ratio : ℚ)
    (out : PCCOut α) (s : List ℚ) (dim : ℕ)
    (hout : phase_cross_correlation masked ref mov u space re
      (none : Option β) none ratio = .ok out)
    (hs : out.outShifts = some s)
    (hdim : ref.shape.getD dim 0 = 1) :
    s.getD dim 0 = 0 := by
  obtain ⟨-, hcore⟩ := pcc_unmasked masked ref mov u space re ratio out hout
  obtain ⟨x, hx⟩ := pccCore_outShifts_zero ref.shape (freqOf space ref)
    (freqOf space mov) u re
  rw [hcore, hx] at hs
  have hsx : s = zeroDegenerate ref.shape x := (Option.some.injEq _ _ |>.mp hs).symm
  rw [hsx]
  exact zeroDegenerate_getD_of_one ref.shape x dim hdim

/-- C4 witness: 1-sample pair, coarse path. -/
theorem C4_degenerate_axis_zero_witness :
    phase_cross_correlation (fun _ _ _ _ _ => ()) ⟨[1], fun _ => 0⟩
        ⟨[1], fun _ => 0⟩ 1 "fourier" false (none : Option Unit) none 0
      = .ok (.shiftsOnly [0])
    ∧ ([(0 : ℚ)]).getD 0 0 = 0 := by
  have heval : phase_cross_correlation (fun _ _ _ _ _ => ()) ⟨[1], fun _ => 0⟩
      ⟨[1], fun _ => (0 : ℂ)⟩ 1 "fourier" false (none : Option Unit) none 0
        = .ok (.shiftsOnly [0]) := by
    unfold phase_cross_correlation
    rw [if_neg (by simp), if_neg (by simp), if_pos (by decide),
      show pccCore (α := Unit) [1] (fun _ => (0 : ℂ)) (fun _ => 0) 1 false
        = .shiftsOnly [0] from rfl]
  exact ⟨heval, C4_degenerate_axis_zero (fun _ _ _ _ _ => ())
    ⟨[1], fun _ => 0⟩ ⟨[1], fun _ => 0⟩ 1 "fourier" false 0
    (.shiftsOnly [0]) [0] 0 heval rfl rfl⟩

/-- Arithmetic core of claim C10: the midpoint-wraparound rule maps a raw
peak index `m < n` to an integer in `[floor(n/2) - n + 1, floor(n/2)]`. -/
theorem coarse_range_arith (m n : ℕ) (hmlt : m < n) (hnpos : 0 < n) :
    ∃ z : ℤ,
      (if midpoints n < (m : ℚ) then (m : ℚ) - (n : ℚ) else (m : ℚ)) = (z : ℚ)
        ∧ ((n / 2 : ℕ) : ℤ) - (n : ℤ) + 1 ≤ z ∧ z ≤ ((n / 2 : ℕ) : ℤ) := by
  unfold midpoints
  by_cases hcase : ((n / 2 : ℕ) : ℚ) < (m : ℚ)
  · refine ⟨(m : ℤ) - (n : ℤ), ?_, ?_, ?_⟩
    · rw [if_pos hcase]
      push_cast
      ring
    · have hnm : (n / 2 : ℕ) < m := by exact_mod_cast hcase
      omega
    · omega
  · refine ⟨(m : ℤ), ?_, ?_, ?_⟩
    · rw [if_neg hcase]
      norm_num
    · have hdiv : n / 2 < n := Nat.div_lt_self hnpos (by norm_num)
      omega
    · have hle : m ≤ n / 2 := by exact_mod_cast not_lt.mp hcase
      omega

/-- The coarse shift component of any peak-locator output lies in the
half-extent range. -/
theorem coarse_getD_range (shape : List ℕ) (g : List ℕ → ℝ) (dim : ℕ)
    (hpos : ∀ n ∈ shape, 0 < n) (hdim : dim < shape.length) :
    ∃ z : ℤ, (coarseShifts (argmaxIdx shape g) shape).getD dim 0 = (z : ℚ)
      ∧ ((shape.getD dim 0 / 2 : ℕ) : ℤ) - (shape.getD dim 0 : ℤ) + 1 ≤ z
      ∧ z ≤ ((shape.getD dim 0 / 2 : ℕ) : ℤ) := by
  have hmem : argmaxIdx shape g ∈ allIdx shape := argmaxIdx_mem hpos g
  obtain ⟨hlen, hbd⟩ := mem_allIdx.mp hmem
  have hmd : dim < (argmaxIdx shape g).length := by rw [hlen]; exact hdim
  have hmlt : (argmaxIdx shape g).getD dim 0 < shape.getD dim 0 := hbd dim hdim
  have hnpos : 0 < shape.getD dim 0 := by
    refine hpos _ ?_
    rw [List.getD_eq_getElem _ _ hdim]
    exact List.getElem_mem _
  obtain ⟨z, hz, hlo, hhi⟩ := coarse_range_arith ((argmaxIdx shape g).getD dim 0)
    (shape.getD dim 0) hmlt hnpos
  refine ⟨z, ?_, hlo, hhi⟩
  unfold coarseShifts
  rw [getD_zipWith _ _ _ dim 0 0 0 hmd hdim]
  exact hz

/-- C10: for every maskless call with `upsample_factor = 1` on nonempty
images, each returned shift component along an axis of length `n` is an
integer lying in `[floor(n/2) - n + 1, floor(n/2)]`: the raw argmax index is
kept when at most `floor(n/2)` and has `n` subtracted otherwise, so no
coarse shift magnitude exceeds the axis half-extent. -/
theorem C10_coarse_shift_range {α β : Type}
    (masked : NDArr → NDArr → Option β → Option β → ℚ → α)
    (ref mov : NDArr) (space : String) (re : Bool) (ratio : ℚ)
    (out : PCCOut α) (s : List ℚ) (dim : ℕ)
    (hout : phase_cross_correlation masked ref mov 1 space re
      (none : Option β) none ratio = .ok out)
    (hs : out.outShifts = some s)
    (hpos : ∀ n ∈ ref.shape, 0 < n)
    (hdim : dim < ref.shape.length) :
    ∃ z : ℤ, s.getD dim 0 = (z : ℚ)
      ∧ ((ref.shape.getD dim 0 / 2 : ℕ) : ℤ) - (ref.shape.getD dim 0 : ℤ) + 1 ≤ z
      ∧ z ≤ ((ref.shape.getD dim 0 / 2 : ℕ) : ℤ) := by
  obtain ⟨-, hcore⟩ := pcc_unmasked masked ref mov 1 space re ratio out hout
  rw [hcore, pccCore_one_outShifts] at hs
  have hsx : s = zeroDegenerate ref.shape (coarseShifts
      (coarsePeak ref.shape (crossCorrelation ref.shape
        (imageProduct (freqOf space ref) (freqOf space mov)))) ref.shape) :=
    (Option.some.injEq _ _ |>.mp hs).symm
  by_cases h1 : ref.shape.getD dim 0 = 1
  · refine ⟨0, ?_, ?_, ?_⟩
    · rw [hsx, zeroDegenerate_getD_of_one ref.shape _ dim h1]
      norm_num
    · rw [h1]
      decide
    · rw [h1]
      decide
  · obtain ⟨z, hz, hlo, hhi⟩ := coarse_getD_range ref.shape
      (fun k => Complex.abs (crossCorrelation ref.shape
        (imageProduct (freqOf space ref) (freqOf space mov)) k)) dim hpos hdim
    refine ⟨z, ?_, hlo, hhi⟩
    rw [hsx, zeroDegenerate_getD_of_ne_one ref.shape _ dim hdim h1]
    exact hz

/-- C10 witness: 1-sample pair, shift 0 within `[0, 0]`. -/
theorem C10_coarse_shift_range_witness :
    ∃ z : ℤ, ([(0 : ℚ)]).getD 0 0 = (z : ℚ)
      ∧ ((([1] : List ℕ).getD 0 0 / 2 : ℕ) : ℤ) - (([1] : List ℕ).getD 0 0 : ℤ) + 1 ≤ z
      ∧ z ≤ ((([1] : List ℕ).getD 0 0 / 2 : ℕ) : ℤ) := by
  have heval : phase_cross_correlation (fun _ _ _ _ _ => ()) ⟨[1], fun _ => 0⟩
      ⟨[1], fun _ => (0 : ℂ)⟩ 1 "fourier" false (none : Option Unit) none 0
        = .ok (.shiftsOnly [0]) := by
    unfold phase_cross_correlation
    rw [if_neg (by simp), if_neg (by simp), if_pos (by decide),
      show pccCore (α := Unit) [1] (fun _ => (0 : ℂ)) (fun _ => 0) 1 false
        = .shiftsOnly [0] from rfl]
  exact C10_coarse_shift_range (fun _ _ _ _ _ => ()) ⟨[1], fun _ => 0⟩
    ⟨[1], fun _ => 0⟩ "fourier" false 0 (.shiftsOnly [0]) [0] 0 heval rfl
    (by decide) (by decide)

/-! ### Zero propagation (for concrete refinement-branch evaluations) -/

theorem contractStep_zero (n sz : ℕ) (u off : ℚ) :
    contractStep n sz u off (fun _ => 0) = fun _ => 0 := by
  funext idx
  cases idx with
  | nil => rfl
  | cons j rest => simp [contractStep]

theorem upsampled_dft_zero (shape sizes : List ℕ) (u : ℚ) (offs : List ℚ) :
    upsampled_dft shape sizes u offs (fun _ => 0) = fun _ => 0 := by
  unfold upsampled_dft
  generalize (shape.zip (sizes.zip offs)).reverse = l
  induction l with
  | nil => rfl
  | cons p t ih =>
    rw [List.foldl_cons, contractStep_zero]
    exact ih

theorem ifftn_zero (shape : List ℕ) : ifftn shape (fun _ => 0) = fun _ => 0 := by
  funext idx
  unfold ifftn sumIdx
  rw [List.sum_eq_zero, zero_div]
  intro x hx
  obtain ⟨k, -, rfl⟩ := List.mem_map.mp hx
  simp

theorem imageProduct_zero :
    imageProduct (fun _ => (0 : ℂ)) (fun _ => 0) = fun _ => 0 := by
  funext k
  simp [imageProduct]

theorem refineWindow_zero (shape : List ℕ) (u : ℚ) (snapped : List ℚ) :
    refineWindow shape (fun _ => 0) u snapped = fun _ => 0 := by
  funext k
  unfold refineWindow
  rw [show (fun j => (starRingEnd ℂ) ((fun _ : List ℕ => (0 : ℂ)) j))
      = (fun _ : List ℕ => (0 : ℂ)) from funext fun j => by simp]
  rw [upsampled_dft_zero]
  simp

/-! ### The refinement formula, componentwise -/

theorem refineStage_fst_getD (shape : List ℕ) (product : List ℕ → ℂ) (u : ℚ)
    (coarse : List ℚ) (dim : ℕ) (hu : 1 < u)
    (hcl : dim < coarse.length) (hL : dim < shape.length) :
    (refineStage shape product u coarse).1.getD dim 0
      = snapShift u (coarse.getD dim 0)
        + (((refinePeak shape product u
              (coarse.map (snapShift u))).getD dim 0 : ℚ) - dftshift u) / u := by
  have hsl : dim < (coarse.map (snapShift u)).length := by simpa using hcl
  have hpk : refinePeak shape product u (coarse.map (snapShift u))
      ∈ allIdx (List.replicate shape.length (windowSize u)) := by
    apply argmaxIdx_mem
    intro n hn
    rw [List.eq_of_mem_replicate hn]
    exact windowSize_pos u hu
  have hpl : dim < (refinePeak shape product u
      (coarse.map (snapShift u))).length := by
    obtain ⟨hlen, -⟩ := mem_allIdx.mp hpk
    rw [hlen, List.length_replicate]
    exact hL
  show (refinedShifts u (coarse.map (snapShift u))
      (refinePeak shape product u (coarse.map (snapShift u)))).getD dim 0 = _
  unfold refinedShifts
  rw [getD_zipWith _ _ _ dim 0 0 0 hsl hpl, getD_map_of_lt _ _ dim 0 0 hcl]

/-- C5: with `return_error` requested and no masks, the error is computed
from per-image amplitudes that are the mean of the squared magnitudes over
all frequency samples (sum divided by array size) when
`upsample_factor = 1`, but the plain sum (not divided by size) when
`upsample_factor > 1`. -/
theorem C5_amp_mean_vs_sum {α β : Type}
    (masked : NDArr → NDArr → Option β → Option β → ℚ → α)
    (ref mov : NDArr) (u : ℚ) (space : String) (ratio : ℚ)
    (s : List ℚ) (err ph : ℝ)
    (hout : phase_cross_correlation masked ref mov u space true
      (none : Option β) none ratio = .ok (.full s err ph)) :
    (u = 1 → err = compute_error
        (crossCorrelation ref.shape
          (imageProduct (freqOf space ref) (freqOf space mov))
          (coarsePeak ref.shape (crossCorrelation ref.shape
            (imageProduct (freqOf space ref) (freqOf space mov)))))
        (meanEnergy ref.shape (freqOf space ref))
        (meanEnergy ref.shape (freqOf space mov)))
      ∧ (1 < u → err = compute_error
          (refineStage ref.shape
            (imageProduct (freqOf space ref) (freqOf space mov)) u
            (coarseShifts (coarsePeak ref.shape (crossCorrelation ref.shape
              (imageProduct (freqOf space ref) (freqOf space mov))))
              ref.shape)).2
          (sumEnergy ref.shape (freqOf space ref))
          (sumEnergy ref.shape (freqOf space mov))) := by
  obtain ⟨-, hcore⟩ := pcc_unmasked masked ref mov u space true ratio _ hout
  constructor
  · intro hu
    subst hu
    rw [pccCore_one, if_pos rfl] at hcore
    exact ((PCCOut.full.injEq _ _ _ _ _ _).mp hcore).2.1
  · intro hu
    rw [pccCore_ne_one _ _ _ _ _ (ne_of_gt hu), if_pos rfl] at hcore
    exact ((PCCOut.full.injEq _ _ _ _ _ _).mp hcore).2.1

/-- C5 witness: 1-sample all-ones pair, `upsample_factor = 1`. -/
theorem C5_amp_mean_vs_sum_witness :
    compute_error
        (crossCorrelation [1] (imageProduct (fun _ => (1 : ℂ)) (fun _ => 1)) [0])
        (meanEnergy [1] (fun _ => 1)) (meanEnergy [1] (fun _ => 1))
      = compute_error
          (crossCorrelation [1]
            (imageProduct (freqOf "fourier" ⟨[1], fun _ => 1⟩)
              (freqOf "fourier" ⟨[1], fun _ => 1⟩))
            (coarsePeak [1] (crossCorrelation [1]
              (imageProduct (freqOf "fourier" ⟨[1], fun _ => 1⟩)
                (freqOf "fourier" ⟨[1], fun _ => 1⟩)))))
          (meanEnergy [1] (freqOf "fourier" ⟨[1], fun _ => 1⟩))
          (meanEnergy [1] (freqOf "fourier" ⟨[1], fun _ => 1⟩)) := by
  have heval : phase_cross_correlation (fun _ _ _ _ _ => ())
      ⟨[1], fun _ => 1⟩ ⟨[1], fun _ => (1 : ℂ)⟩ 1 "fourier" true
      (none : Option Unit) none 0
        = .ok (.full [0]
            (compute_error
              (crossCorrelation [1]
                (imageProduct (fun _ => (1 : ℂ)) (fun _ => 1)) [0])
              (meanEnergy [1] (fun _ => 1)) (meanEnergy [1] (fun _ => 1)))
            (compute_phasediff
              (crossCorrelation [1]
                (imageProduct (fun _ => (1 : ℂ)) (fun _ => 1)) [0]))) := by
    unfold phase_cross_correlation
    rw [if_neg (by simp), if_neg (by simp), if_pos (by decide), pccCore_one,
      if_pos rfl]
    have hcp : coarsePeak [1] (crossCorrelation [1]
        (imageProduct (fun _ => (1 : ℂ)) (fun _ => 1))) = [0] := rfl
    rw [hcp]
    have hcs : coarseShifts [0] [1] = [0] := by
      norm_num [coarseShifts, midpoints]
    rw [hcs]
    have hz : zeroDegenerate [1] [0] = [0] := by
      norm_num [zeroDegenerate]
    rw [hz]
  exact (C5_amp_mean_vs_sum (fun _ _ _ _ _ => ()) ⟨[1], fun _ => 1⟩
    ⟨[1], fun _ => 1⟩ 1 "fourier" 0 [0] _ _ heval).1 rfl

/-- C3 counterexample: the claim asserts the returned shift equals the
snapped-coarse-plus-window-peak formula on every axis, but the
degenerate-axis pass (source lines 276-278) overrides it on axes of
length 1.  For the 1-sample zero pair with `upsample_factor = 2`, the
formula yields `-1/2` (the flat window's argmax is index 0 while `dftshift`
is 1) yet the returned component is 0. -/
theorem C3_counterexample :
    phase_cross_correlation (fun _ _ _ _ _ => ()) ⟨[1], fun _ => 0⟩
        ⟨[1], fun _ => 0⟩ 2 "fourier" false (none : Option Unit) none 0
      = .ok (.shiftsOnly [0])
    ∧ (refineStage [1] (imageProduct (fun _ => (0 : ℂ)) (fun _ => 0)) 2
        (coarseShifts (coarsePeak [1] (crossCorrelation [1]
          (imageProduct (fun _ => (0 : ℂ)) (fun _ => 0)))) [1])).1.getD 0 0
      = -(1 / 2)
    ∧ ((0 : ℚ) ≠ -(1 / 2)) := by
  have hcp : coarsePeak [1] (crossCorrelation [1]
      (imageProduct (fun _ => (0 : ℂ)) (fun _ => 0))) = [0] := rfl
  have hcs : coarseShifts [0] [1] = [0] := by
    norm_num [coarseShifts, midpoints]
  have hsnap : ([(0 : ℚ)]).map (snapShift 2) = [0] := by
    norm_num [snapShift, roundHalfEven]
  have hws : windowSize 2 = 3 := by
    have h3 : ⌈(2 : ℚ) * (3 / 2)⌉ = 3 := by norm_num
    unfold windowSize
    rw [h3]
    rfl
  have hwin : refineWindow [1] (fun _ => 0) 2 [0] = fun _ => 0 :=
    refineWindow_zero [1] 2 [0]
  have hpeak : refinePeak [1] (fun _ => 0) 2 [0] = [0] := by
    unfold refinePeak
    simp only [hwin]
    rw [hws, show List.replicate ([1] : List ℕ).length 3 = [3] from rfl]
    unfold argmaxIdx
    rw [show allIdx [3] = [[0], [1], [2]] from rfl]
    have ha : argmaxList (List.map (fun _ : List ℕ => Complex.abs (0 : ℂ))
        [[0], [1], [2]]) = 0 := by
      simp [argmaxList, argmaxAux]
    rw [ha]
    rfl
  have hcp0 : coarsePeak [1] (crossCorrelation [1]
      (fun _ : List ℕ => (0 : ℂ))) = [0] := rfl
  have hR : (refineStage [1] (imageProduct (fun _ => (0 : ℂ)) (fun _ => 0)) 2
      (coarseShifts (coarsePeak [1] (crossCorrelation [1]
        (imageProduct (fun _ => (0 : ℂ)) (fun _ => 0)))) [1])).1
        = [-(1 / 2)] := by
    rw [imageProduct_zero, hcp0, hcs]
    show refinedShifts 2 (([(0 : ℚ)]).map (snapShift 2))
        (refinePeak [1] (fun _ => 0) 2 (([(0 : ℚ)]).map (snapShift 2)))
      = [-(1 / 2)]
    rw [hsnap, hpeak]
    norm_num [refinedShifts, dftshift, hws]
  refine ⟨?_, ?_, by norm_num⟩
  · unfold phase_cross_correlation
    rw [if_neg (by simp), if_neg (by simp), if_pos (by decide),
      pccCore_ne_one _ _ _ _ _ (by norm_num : (2 : ℚ) ≠ 1)]
    rw [if_neg (by simp)]
    rw [show (refineStage [1]
        (imageProduct ((⟨[1], fun _ => 0⟩ : NDArr)).val
          ((⟨[1], fun _ => 0⟩ : NDArr)).val) 2
        (coarseShifts (coarsePeak [1] (crossCorrelation [1]
          (imageProduct ((⟨[1], fun _ => 0⟩ : NDArr)).val
            ((⟨[1], fun _ => 0⟩ : NDArr)).val))) [1])).1 = [-(1 / 2)] from hR]
    norm_num [zeroDegenerate]
  · rw [hR]
    rfl

/-- C3 (amended): for every maskless call with `upsample_factor > 1` on
nonempty images, the returned shift on every axis of length other than 1
equals the snapped coarse shift plus `(peak_index - dftshift) /
upsample_factor`, with window size `ceil(1.5 * upsample_factor)` per axis,
`dftshift = floor(window_size / 2)` and `peak_index` the magnitude-argmax of
the conjugated upsampled-DFT window; on axes of length 1 the degenerate-axis
pass overrides this value with 0. -/
theorem C3_amended_refined_shift_formula {α β : Type}
    (masked : NDArr → NDArr → Option β → Option β → ℚ → α)
    (ref mov : NDArr) (u : ℚ) (space : String) (re : Bool) (ratio : ℚ)
    (out : PCCOut α) (s : List ℚ) (dim : ℕ)
    (hu : 1 < u)
    (hout : phase_cross_correlation masked ref mov u space re
      (none : Option β) none ratio = .ok out)
    (hs : out.outShifts = some s)
    (hpos : ∀ n ∈ ref.shape, 0 < n)
    (hdim : dim < ref.shape.length)
    (hnot1 : ref.shape.getD dim 0 ≠ 1) :
    s.getD dim 0
      = snapShift u ((coarseShifts (coarsePeak ref.shape (crossCorrelation
          ref.shape (imageProduct (freqOf space ref) (freqOf space mov))))
          ref.shape).getD dim 0)
        + (((refinePeak ref.shape
              (imageProduct (freqOf space ref) (freqOf space mov)) u
              ((coarseShifts (coarsePeak ref.shape (crossCorrelation ref.shape
                (imageProduct (freqOf space ref) (freqOf space mov))))
                ref.shape).map (snapShift u))).getD dim 0 : ℚ)
            - dftshift u) / u := by
  obtain ⟨-, hcore⟩ := pcc_unmasked masked ref mov u space re ratio out hout
  rw [hcore, pccCore_ne_one_outShifts _ _ _ _ _ (ne_of_gt hu)] at hs
  have hsx : s = zeroDegenerate ref.shape
      (refineStage ref.shape
        (imageProduct (freqOf space ref) (freqOf space mov)) u
        (coarseShifts (coarsePeak ref.shape (crossCorrelation ref.shape
          (imageProduct (freqOf space ref) (freqOf space mov))))
          ref.shape)).1 :=
    (Option.some.injEq _ _ |>.mp hs).symm
  have hmem : coarsePeak ref.shape (crossCorrelation ref.shape
      (imageProduct (freqOf space ref) (freqOf space mov)))
      ∈ allIdx ref.shape := argmaxIdx_mem hpos _
  have hcl : dim < (coarseShifts (coarsePeak ref.shape (crossCorrelation
      ref.shape (imageProduct (freqOf space ref) (freqOf space mov))))
      ref.shape).length := by
    obtain ⟨hlen, -⟩ := mem_allIdx.mp hmem
    unfold coarseShifts
    rw [List.length_zipWith, hlen, min_self]
    exact hdim
  rw [hsx, zeroDegenerate_getD_of_ne_one ref.shape _ dim hdim hnot1]
  exact refineStage_fst_getD ref.shape _ u _ dim hu hcl hdim

/-- C3 witness: two-sample zero pair at `upsample_factor = 2`; the single
axis has length 2, and the returned component `-1/2` matches the formula. -/
theorem C3_amended_refined_shift_formula_witness :
    ([-(1 / 2 : ℚ)]).getD 0 0
      = snapShift 2 ((coarseShifts (coarsePeak [2] (crossCorrelation [2]
          (imageProduct (freqOf "fourier" ⟨[2], fun _ => 0⟩)
            (freqOf "fourier" ⟨[2], fun _ => 0⟩)))) [2]).getD 0 0)
        + (((refinePeak [2]
              (imageProduct (freqOf "fourier" ⟨[2], fun _ => 0⟩)
                (freqOf "fourier" ⟨[2], fun _ => 0⟩)) 2
              ((coarseShifts (coarsePeak [2] (crossCorrelation [2]
                (imageProduct (freqOf "fourier" ⟨[2], fun _ => 0⟩)
                  (freqOf "fourier" ⟨[2], fun _ => 0⟩)))) [2]).map
                (snapShift 2))).getD 0 0 : ℚ)
            - dftshift 2) / 2 := by
  have hws : windowSize 2 = 3 := by
    have h3 : ⌈(2 : ℚ) * (3 / 2)⌉ = 3 := by norm_num
    unfold windowSize
    rw [h3]
    rfl
  have hccz : crossCorrelation [2] (fun _ : List ℕ => (0 : ℂ)) = fun _ => 0 :=
    ifftn_zero [2]
  have hcp2 : coarsePeak [2] (crossCorrelation [2]
      (fun _ : List ℕ => (0 : ℂ))) = [0] := by
    unfold coarsePeak
    simp only [hccz]
    unfold argmaxIdx
    rw [show allIdx [2] = [[0], [1]] from rfl]
    have ha : argmaxList (List.map (fun _ : List ℕ => Complex.abs (0 : ℂ))
        [[0], [1]]) = 0 := by
      simp [argmaxList, argmaxAux]
    rw [ha]
    rfl
  have hcs2 : coarseShifts [0] [2] = [0] := by
    norm_num [coarseShifts, midpoints]
  have hsnap2 : ([(0 : ℚ)]).map (snapShift 2) = [0] := by
    norm_num [snapShift, roundHalfEven]
  have hwin2 : refineWindow [2] (fun _ => 0) 2 [0] = fun _ => 0 :=
    refineWindow_zero [2] 2 [0]
  have hpeak2 : refinePeak [2] (fun _ => 0) 2 [0] = [0] := by
    unfold refinePeak
    simp only [hwin2]
    rw [hws, show List.replicate ([2] : List ℕ).length 3 = [3] from rfl]
    unfold argmaxIdx
    rw [show allIdx [3] = [[0], [1], [2]] from rfl]
    have ha : argmaxList (List.map (fun _ : List ℕ => Complex.abs (0 : ℂ))
        [[0], [1], [2]]) = 0 := by
      simp [argmaxList, argmaxAux]
    rw [ha]
    rfl
  have hR2 : (refineStage [2]
      (imageProduct (fun _ => (0 : ℂ)) (fun _ => 0)) 2
      (coarseShifts (coarsePeak [2] (crossCorrelation [2]
        (imageProduct (fun _ => (0 : ℂ)) (fun _ => 0)))) [2])).1
        = [-(1 / 2)] := by
    rw [imageProduct_zero, hcp2, hcs2]
    show refinedShifts 2 (([(0 : ℚ)]).map (snapShift 2))
        (refinePeak [2] (fun _ => 0) 2 (([(0 : ℚ)]).map (snapShift 2)))
      = [-(1 / 2)]
    rw [hsnap2, hpeak2]
    norm_num [refinedShifts, dftshift, hws]
  have heval : phase_cross_correlation (fun _ _ _ _ _ => ())
      ⟨[2], fun _ => 0⟩ ⟨[2], fun _ => (0 : ℂ)⟩ 2 "fourier" false
      (none : Option Unit) none 0 = .ok (.shiftsOnly [-(1 / 2)]) := by
    unfold phase_cross_correlation
    rw [if_neg (by simp), if_neg (by simp), if_pos (by decide),
      pccCore_ne_one _ _ _ _ _ (by norm_num : (2 : ℚ) ≠ 1),
      if_neg (by simp)]
    rw [show (refineStage [2]
        (imageProduct ((⟨[2], fun _ => 0⟩ : NDArr)).val
          ((⟨[2], fun _ => (0 : ℂ)⟩ : NDArr)).val) 2
        (coarseShifts (coarsePeak [2] (crossCorrelation [2]
          (imageProduct ((⟨[2], fun _ => 0⟩ : NDArr)).val
            ((⟨[2], fun _ => (0 : ℂ)⟩ : NDArr)).val))) [2])).1
        = [-(1 / 2)] from hR2]
    norm_num [zeroDegenerate]
  exact C3_amended_refined_shift_formula (fun _ _ _ _ _ => ())
    ⟨[2], fun _ => 0⟩ ⟨[2], fun _ => 0⟩ 2 "fourier" false 0
    (.shiftsOnly [-(1 / 2)]) [-(1 / 2)] 0 (by norm_num) heval rfl
    (by decide) (by decide) (by decide)
